import Mathlib

set_option linter.unusedVariables false

namespace Chemfiles

/-!
Shallow embedding of parts of the chemfiles library: the token parser
(`parse.hpp`), its `scan` helper, the TRR binary random-access codec
(modelled from the specification, since only `TRR.hpp` is among the
sources), and the InChI chemical-identifier codec (`InChI.cpp`).
-/

/-- Errors thrown by the embedded code paths. Constructors carry the data
that the corresponding C++ error messages interpolate. -/
inductive Err where
  | cannotConvert (input : List Char) (ty : String)
  | outOfRange (input : List Char) (ty : String)
  | valueOutOfRange (value : Int)
  | emptyString
  | notEnough (tried : Nat) (available : Nat)
  | scanError (line : List Char) (inner : Err)
  | formatError (msg : String)
  | stepOutOfBounds (step : Nat)
  | assertFailed (msg : String)
  | substrOutOfRange (s : String) (pos : Nat)
  deriving DecidableEq, Repr

/-! ## Token parser (`parse.hpp`) -/

def int64Max : Int := 9223372036854775807

def int64Min : Int := -9223372036854775808

def uint64Max : Nat := 18446744073709551615

def digitVal (c : Char) : Option Nat :=
  if c.isDigit then some (c.toNat - '0'.toNat) else none

def parseDigitsAux : List Char → Nat → Option Nat
  | [], acc => some acc
  | c :: cs, acc =>
    match digitVal c with
    | none => none
    | some d => parseDigitsAux cs (acc * 10 + d)

/-- Parse a non-empty all-digit token into its numeric value; `none` on an
empty token or any non-digit character (the whole token must be consumed). -/
def parseDigits (l : List Char) : Option Nat :=
  if l.isEmpty then none else parseDigitsAux l 0

/-- Modelled from the spec: `parse<int64_t>` (implemented in `parse.cpp`,
which is not among the sources; the contract is the header's doc comment):
numbers follow the pattern sign? digits, the whole token must be consumed,
empty or invalid input and values overflowing `int64_t` are errors. -/
def parseInt64 (l : List Char) : Except Err Int :=
  match l with
  | [] => .error (.cannotConvert l "integer")
  | c :: rest =>
    let signDigits : Int × List Char :=
      if c = '-' then (-1, rest) else if c = '+' then (1, rest) else (1, l)
    match parseDigits signDigits.2 with
    | none => .error (.cannotConvert l "integer")
    | some n =>
      let v : Int := signDigits.1 * (n : Int)
      if v < int64Min ∨ int64Max < v then .error (.outOfRange l "integer")
      else .ok v

/-- Modelled from the spec: `parse<uint64_t>` (implemented in `parse.cpp`,
not among the sources): pattern is an optional plus sign followed by
digits; overflow of `uint64_t` is an error. -/
def parseUInt64 (l : List Char) : Except Err Nat :=
  match l with
  | [] => .error (.cannotConvert l "integer")
  | c :: rest =>
    let digits := if c = '+' then rest else l
    match parseDigits digits with
    | none => .error (.cannotConvert l "integer")
    | some n =>
      if uint64Max < n then .error (.outOfRange l "integer") else .ok n

def intMaxOf (w : Nat) : Int := 2 ^ (w - 1) - 1

def intMinOf (w : Nat) : Int := -(2 ^ (w - 1))

def uintMaxOf (w : Nat) : Nat := 2 ^ w - 1

/-- C++ `static_cast` to a `w`-bit signed integer: reduce modulo `2 ^ w`
into the representable range (two's complement wrap-around). -/
def wrapSigned (w : Nat) (v : Int) : Int :=
  let m : Int := 2 ^ w
  let r := v % m
  if r < 2 ^ (w - 1) then r else r - m

/-- `detail::convert_integer<Small, int64_t>` for a signed target of width
`w` bits: when the target is narrower than 64 bits the value is compared
against the target's maximum only, then returned through `static_cast`. -/
def convertIntegerSigned (w : Nat) (v : Int) : Except Err Int :=
  if w < 64 then
    if intMaxOf w < v then .error (.valueOutOfRange v)
    else .ok (wrapSigned w v)
  else .ok v

/-- `detail::convert_integer<Small, uint64_t>` for an unsigned target of
width `w` bits. -/
def convertIntegerUnsigned (w : Nat) (n : Nat) : Except Err Nat :=
  if w < 64 then
    if uintMaxOf w < n then .error (.valueOutOfRange (n : Int))
    else .ok (n % 2 ^ w)
  else .ok n

/-- `detail::parse_integer<T>` for a signed `T` of width `w`: parse as
`int64_t`, then range-check and cast with `convert_integer`. -/
def parseSignedAs (w : Nat) (l : List Char) : Except Err Int :=
  match parseInt64 l with
  | .error e => .error e
  | .ok v => convertIntegerSigned w v

/-- `detail::parse_integer<T>` for an unsigned `T` of width `w`: parse as
`uint64_t`, then range-check and cast with `convert_integer`. -/
def parseUnsignedAs (w : Nat) (l : List Char) : Except Err Nat :=
  match parseUInt64 l with
  | .error e => .error e
  | .ok v => convertIntegerUnsigned w v

/-- `parse<std::string>`: returns its input, failing only on empty input. -/
def parseString (l : List Char) : Except Err String :=
  if l.isEmpty then .error .emptyString else .ok (String.mk l)

/-! ## `scan` and the whitespace tokens iterator (`parse.hpp`) -/

/-- Modelled from the spec: the `is_whitespace` helper lives in
`utils.hpp`, which is not among the sources; a field separator is a run of
ASCII blanks. None of the claims depends on the exact character set. -/
def is_whitespace (c : Char) : Bool :=
  c == ' ' || c == '\t' || c == '\n' || c == '\r'

/-- One step of `tokens_iterator::next`: skip leading whitespace, then take
the maximal run of non-whitespace characters. Returns `none` when no token
remains, otherwise the token and the rest of the input. -/
def nextTok (l : List Char) : Option (List Char × List Char) :=
  let afterWs := l.dropWhile is_whitespace
  let tok := afterWs.takeWhile (fun c => !is_whitespace c)
  if tok.isEmpty then none
  else some (tok, afterWs.dropWhile (fun c => !is_whitespace c))

/-- The state of `detail::tokens_iterator`: the input not yet consumed and
the number of values read so far. -/
structure TokIter where
  rest : List Char
  count : Nat
  deriving DecidableEq, Repr

/-- `detail::tokens_iterator::next`: return the next whitespace-separated
value; throw naming the ordinal of this read and the number of values
actually present when the input is exhausted. -/
def TokIter.next (it : TokIter) : Except Err (List Char × TokIter) :=
  match nextTok it.rest with
  | none => .error (.notEnough (it.count + 1) it.count)
  | some (tok, rest) => .ok (tok, ⟨rest, it.count + 1⟩)

/-- The whitespace-separated fields of a line (reference function used to
state properties of the iterator). -/
def fieldsAux : List Char → List Char → List (List Char)
  | [], acc => if acc.isEmpty then [] else [acc.reverse]
  | c :: cs, acc =>
    if is_whitespace c then
      (if acc.isEmpty then [] else [acc.reverse]) ++ fieldsAux cs []
    else fieldsAux cs (c :: acc)

def fieldsOf (l : List Char) : List (List Char) := fieldsAux l []

/-- The type of one output slot of `scan`: a signed or unsigned integer of
width `w`, or a string. -/
inductive SlotKind where
  | sint (w : Nat)
  | uint (w : Nat)
  | str
  deriving DecidableEq, Repr

/-- A parsed value stored into a `scan` output slot. -/
inductive PValue where
  | int (v : Int)
  | str (s : String)
  deriving DecidableEq, Repr

/-- `parse<T>` dispatched on the slot type. -/
def parseSlot : SlotKind → List Char → Except Err PValue
  | .sint w, tok => (parseSignedAs w tok).map .int
  | .uint w, tok => (parseUnsignedAs w tok).map .int
  | .str, tok => (parseString tok).map .str

/-- `detail::scan_impl`: read one token per slot, in order, parsing each
token into the corresponding slot. -/
def scanImpl (it : TokIter) : List SlotKind → Except Err (List PValue × TokIter)
  | [] => .ok ([], it)
  | s :: slots =>
    match it.next with
    | .error e => .error e
    | .ok (tok, it') =>
      match parseSlot s tok with
      | .error e => .error e
      | .ok v =>
        match scanImpl it' slots with
        | .error e => .error e
        | .ok (vs, it'') => .ok (v :: vs, it'')

/-- `scan`: run `scan_impl` over the line, wrapping any failure in an error
carrying the whole original line; on success also return the number of
characters consumed. -/
def scan (line : List Char) (slots : List SlotKind) :
    Except Err (List PValue × Nat) :=
  match scanImpl ⟨line, 0⟩ slots with
  | .error e => .error (.scanError line e)
  | .ok (vs, it) => .ok (vs, line.length - it.rest.length)

/-! ## Binary random-access codec (TRR)

Only `TRR.hpp` is among the sources; the behaviour of
`determine_frame_offsets`, `read_step` and `nsteps` is modelled from the
specification (lazy offset index grown by scanning forward from the last
recorded offset, atom count fixed by the first frame's header). -/

/-- One frame record of the on-disk trajectory: the atom count declared by
its header, and its total length in bytes (header plus payload). -/
structure FrameRecord where
  natoms : Nat
  size : Nat
  deriving DecidableEq, Repr

/-- The byte offsets at which successive frames start, the first frame
starting at `pos`. -/
def offsetsFrom (pos : Nat) : List FrameRecord → List Nat
  | [] => []
  | h :: rest => pos :: offsetsFrom (pos + h.size) rest

/-- The byte ranges (start inclusive, stop exclusive) scanned while
indexing successive frames starting at `pos`. -/
def rangesFrom (pos : Nat) : List FrameRecord → List (Nat × Nat)
  | [] => []
  | h :: rest => (pos, pos + h.size) :: rangesFrom (pos + h.size) rest

def totalSize : List FrameRecord → Nat
  | [] => 0
  | h :: rest => h.size + totalSize rest

/-- Modelled from the spec: the indexing pass of
`TRRFormat::determine_frame_offsets`. Scan the not-yet-indexed frames
starting at byte `pos`, recording the offset of each frame start and the
byte range scanned for it; the first header fixes the atom count and any
later header declaring a different atom count is a hard `FormatError`.
Returns the recorded offsets, the scanned ranges, the end position and the
atom count. -/
def resumeIndex : List FrameRecord → Nat → Option Nat →
    Except Err (List Nat × List (Nat × Nat) × Nat × Option Nat)
  | [], pos, nat => .ok ([], [], pos, nat)
  | h :: rest, pos, nat =>
    match nat with
    | some n =>
      if h.natoms ≠ n then .error (.formatError "inconsistent atom count")
      else
        match resumeIndex rest (pos + h.size) (some n) with
        | .error e => .error e
        | .ok (offs, rgs, stop, nat') =>
          .ok (pos :: offs, (pos, pos + h.size) :: rgs, stop, nat')
    | none =>
      match resumeIndex rest (pos + h.size) (some h.natoms) with
      | .error e => .error e
      | .ok (offs, rgs, stop, nat') =>
        .ok (pos :: offs, (pos, pos + h.size) :: rgs, stop, nat')

/-- Modelled from the spec: the state of a `TRRFormat` codec — the
underlying stream content, the lazily grown offset table
(`frame_offsets_`), the atom count fixed by the first frame (`natoms_`),
the last known offset `pos` and the number of frames indexed so far. -/
structure TRRCodec where
  file : List FrameRecord
  frame_offsets_ : List Nat
  natoms_ : Option Nat
  pos : Nat
  indexed : Nat
  deriving DecidableEq, Repr

def TRRCodec.init (file : List FrameRecord) : TRRCodec :=
  ⟨file, [], none, 0, 0⟩

/-- Modelled from the spec: `TRRFormat::nsteps` — complete the offset
index by resuming the scan from the last recorded offset, then report the
number of frames. Returns the count, the updated codec and the byte
ranges scanned by this call. -/
def TRRCodec.nsteps (c : TRRCodec) :
    Except Err (Nat × TRRCodec × List (Nat × Nat)) :=
  match resumeIndex (c.file.drop c.indexed) c.pos c.natoms_ with
  | .error e => .error e
  | .ok (offs, rgs, stop, nat) =>
    .ok (c.frame_offsets_.length + offs.length,
         { c with
           frame_offsets_ := c.frame_offsets_ ++ offs,
           natoms_ := nat,
           pos := stop,
           indexed := c.file.length },
         rgs)

/-- Modelled from the spec: `TRRFormat::read_step` — when the requested
step is already covered by the offset table, read it without any further
scan; otherwise resume indexing from the last recorded offset until the
step is covered, then read it. Returns the frame record, the updated
codec and the byte ranges scanned by this call. -/
def TRRCodec.read_step (c : TRRCodec) (step : Nat) :
    Except Err (FrameRecord × TRRCodec × List (Nat × Nat)) :=
  if step < c.indexed then
    match c.file.get? step with
    | some h => .ok (h, c, [])
    | none => .error (.stepOutOfBounds step)
  else
    let toScan := (c.file.drop c.indexed).take (step + 1 - c.indexed)
    match resumeIndex toScan c.pos c.natoms_ with
    | .error e => .error e
    | .ok (offs, rgs, stop, nat) =>
      let c' : TRRCodec :=
        { c with
          frame_offsets_ := c.frame_offsets_ ++ offs,
          natoms_ := nat,
          pos := stop,
          indexed := c.indexed + toScan.length }
      if step < c'.indexed then
        match c'.file.get? step with
        | some h => .ok (h, c', rgs)
        | none => .error (.stepOutOfBounds step)
      else .error (.stepOutOfBounds step)

/-! ## Chemical-identifier codec (`InChI.cpp`) -/

/-- A 3-D position. Coordinates are rationals: the embedded geometry test
compares squared distances exactly, standing in for the C++ `double`
arithmetic. -/
structure Vec3 where
  x : Rat
  y : Rat
  z : Rat
  deriving DecidableEq, Repr

/-- Squared Euclidean distance (`frame.distance(i, j)` squared, with an
infinite unit cell so no periodic wrapping applies). -/
def dist2 (p q : Vec3) : Rat :=
  (p.x - q.x) ^ 2 + (p.y - q.y) ^ 2 + (p.z - q.z) ^ 2

/-- The square of the fixed epsilon `0.000001` of `is_zero_dimensions`. -/
def epsSq : Rat := 1 / 1000000000000

/-- An atom of a Frame as seen by `InChIFormat::write_next`: its optional
atomic number and its optional `chirality` string property. -/
structure WAtom where
  atomicNumber : Option Nat
  chirality : Option String
  deriving DecidableEq, Repr

/-- The part of a Frame consumed by `InChIFormat::write_next`: atoms,
their positions, and the topology's bonds. -/
structure WFrame where
  atoms : List WAtom
  positions : List Vec3
  bonds : List (Nat × Nat)
  deriving DecidableEq, Repr

/-- The Frame invariants assumed by the writer: one position per atom, and
every bond joins two distinct atoms of the frame. -/
def WFrame.valid (f : WFrame) : Prop :=
  f.positions.length = f.atoms.length ∧
  ∀ b ∈ f.bonds,
    b.1 < f.atoms.length ∧ b.2 < f.atoms.length ∧ b.1 ≠ b.2

/-- `is_zero_dimensions`: a frame with 0 or 1 atoms is degenerate by
definition; otherwise the frame is degenerate exactly when every atom lies
within `eps` of atom 0 (`frame.distance(0, i) > eps` returns false for
all `i`, stated here on squared distances). -/
def is_zero_dimensions (f : WFrame) : Bool :=
  if f.atoms.length == 0 || f.atoms.length == 1 then true
  else
    match f.positions with
    | [] => true
    | p0 :: rest => rest.all (fun p => decide (dist2 p0 p ≤ epsSq))

/-- The neighbor list of atom `i`, in the order `write_next` builds its
`adj_list`: one pass over the bonds, appending the other endpoint of every
bond involving `i`. -/
def neighborsOf (i : Nat) : List (Nat × Nat) → List Nat
  | [] => []
  | b :: rest =>
    (if b.1 = i then [b.2] else []) ++
    (if b.2 = i then [b.1] else []) ++
    neighborsOf i rest

/-- A vertex of a tetrahedral stereocenter: an atom of the molecule or the
`IXA_ATOMID_IMPLICIT_H` marker. -/
inductive Vertex where
  | atomIdx (i : Nat)
  | implicitH
  deriving DecidableEq, Repr

inductive StereoParity where
  | even
  | odd
  | pnone
  | unknown
  deriving DecidableEq, Repr

/-- A constructed tetrahedral stereocenter: central atom, the four
vertices in the order they are passed to
`IXA_MOL_CreateStereoTetrahedron`, and the parity. -/
structure TStereo where
  center : Nat
  v1 : Vertex
  v2 : Vertex
  v3 : Vertex
  v4 : Vertex
  parity : StereoParity
  deriving DecidableEq, Repr

/-- The parity-string dispatch at the end of
`IXAMolWrapper::create_stereo_tetrahedron`. -/
def parityOfString (p : String) : StereoParity :=
  if p = "odd" then .odd
  else if p = "even" then .even
  else if p = "none" then .pnone
  else .unknown

/-- `IXAMolWrapper::create_stereo_tetrahedron`: vertices are the first
four neighbors, the fourth being the implicit-hydrogen marker when only
three neighbors exist; when the fourth vertex is the implicit-hydrogen
marker or a hydrogen atom (atomic number 1) it is swapped with the first
vertex. `atNums` lists the atomic number of every atom of the molecule
(0 when the Frame atom had none). Fewer than three neighbors fail the
`assert`. -/
def create_stereo_tetrahedron (atNums : List Nat) (center : Nat)
    (a : List Nat) (parity : String) : Except Err TStereo :=
  match a with
  | n1 :: n2 :: n3 :: rest =>
    let v1 := Vertex.atomIdx n1
    let v2 := Vertex.atomIdx n2
    let v3 := Vertex.atomIdx n3
    let v4 := match rest with
      | [] => Vertex.implicitH
      | n4 :: _ => Vertex.atomIdx n4
    let doSwap := match rest with
      | [] => true
      | n4 :: _ => atNums.getD n4 0 == 1
    if doSwap then .ok ⟨center, v4, v2, v3, v1, parityOfString parity⟩
    else .ok ⟨center, v1, v2, v3, v4, parityOfString parity⟩
  | _ => .error (.assertFailed "create_stereo_tetrahedron needs 3 vertices")

/-- `std::string_view::starts_with`, on the underlying character list. -/
def strStartsWith (s pre : String) : Bool :=
  pre.data.isPrefixOf s.data

/-- `std::string_view::substr(pos)`: out of range when `pos` exceeds the
length. -/
def substrFrom (s : String) (pos : Nat) : Except Err String :=
  if s.length < pos then .error (.substrOutOfRange s pos)
  else .ok (String.mk (s.data.drop pos))

/-- The warning text emitted for a chiral atom with fewer than 3 bonds. -/
def warnUnderConnected : String :=
  "tetrahedral chirality property set for atom with fewer than 3 bonds"

/-- The observable outcome of processing one atom in the degenerate-
geometry branch of `write_next`: warnings emitted, the stereocenter
constructed (if any), and how many times
`create_stereo_tetrahedron` was invoked. -/
structure StereoStep where
  warnings : List String
  stereo : Option TStereo
  attempts : Nat
  deriving DecidableEq, Repr

/-- One iteration of the stereo loop of `InChIFormat::write_next` for atom
`i`: atoms whose `chirality` property starts with `tetrahedron` are turned
into explicit stereocenters from their neighbor list; with fewer than 3
bonds a warning is emitted and the stereocenter omitted. -/
def writeAtomStereo (atNums : List Nat) (bonds : List (Nat × Nat))
    (i : Nat) (a : WAtom) : Except Err StereoStep :=
  if strStartsWith (a.chirality.getD "") "tetrahedron" then
    if (neighborsOf i bonds).length ≤ 2 then
      .ok ⟨[warnUnderConnected], none, 0⟩
    else
      match substrFrom (a.chirality.getD "") 12 with
      | .error e => .error e
      | .ok parity =>
        match create_stereo_tetrahedron atNums i (neighborsOf i bonds) parity with
        | .error e => .error e
        | .ok s => .ok ⟨[], some s, 1⟩
  else .ok ⟨[], none, 0⟩

/-- The observable outcome of `write_next`: warnings, constructed
stereocenters, and the number of `create_stereo_tetrahedron` calls. -/
structure WriteResult where
  warnings : List String
  stereos : List TStereo
  attempts : Nat
  deriving DecidableEq, Repr

/-- Pair every element with its index, starting at `n`. -/
def enumFrom (n : Nat) : List α → List (Nat × α)
  | [] => []
  | a :: rest => (n, a) :: enumFrom (n + 1) rest

def writeStereoLoop (atNums : List Nat) (bonds : List (Nat × Nat)) :
    List (Nat × WAtom) → Except Err WriteResult
  | [] => .ok ⟨[], [], 0⟩
  | (i, a) :: rest =>
    match writeAtomStereo atNums bonds i a with
    | .error e => .error e
    | .ok st =>
      match writeStereoLoop atNums bonds rest with
      | .error e => .error e
      | .ok r =>
        .ok ⟨st.warnings ++ r.warnings,
             st.stereo.toList ++ r.stereos,
             st.attempts + r.attempts⟩

/-- The stereo-relevant behaviour of `InChIFormat::write_next`: explicit
stereocenters are considered only in the degenerate-geometry branch, where
the loop above runs over all atoms with their indices. -/
def write_next (f : WFrame) : Except Err WriteResult :=
  if is_zero_dimensions f then
    writeStereoLoop (f.atoms.map (fun a => a.atomicNumber.getD 0)) f.bonds
      (enumFrom 0 f.atoms)
  else .ok ⟨[], [], 0⟩

/-! ### Read path: atoms (`IXAMolWrapper::get_atom`) -/

/-- The radical state of an IXA atom (`IXA_ATOM_RADICAL_NONE` is the
implicit default). -/
inductive Radical where
  | rnone
  | singlet
  | doublet
  | triplet
  deriving DecidableEq, Repr

def radicalCode : Radical → Nat
  | .rnone => 0
  | .singlet => 1
  | .doublet => 2
  | .triplet => 3

/-- `IXA_ATOM_NATURAL_MASS`: the sentinel the toolkit reports for an atom
with the natural isotopic mass. -/
def IXA_ATOM_NATURAL_MASS : Nat := 0

/-- The data the toolkit exposes for one atom: element, mass field,
charge, radical state, and the counts of attached hydrogen isotopes
(protium, deuterium, tritium). -/
structure IXAAtom where
  element : String
  mass : Nat
  charge : Int
  radical : Radical
  hydrogens1 : Nat
  hydrogens2 : Nat
  hydrogens3 : Nat
  deriving DecidableEq, Repr

/-- A chemfiles `Atom` as built by the reader: `massSet`/`chargeSet` are
`none` when `set_mass`/`set_charge` were not called (the implicit default
stands), and `props` is the named-property bag. -/
structure PAtom where
  name : String
  massSet : Option Nat
  chargeSet : Option Int
  props : List (String × Nat)
  deriving DecidableEq, Repr

/-- `IXAMolWrapper::get_atom`: build an `Atom` from the toolkit data,
setting mass, charge, radical and isotope-count properties only when they
differ from the implicit defaults. -/
def get_atom (a : IXAAtom) : PAtom :=
  { name := a.element
    massSet :=
      if a.mass ≠ IXA_ATOM_NATURAL_MASS then some a.mass else none
    chargeSet := if a.charge ≠ 0 then some a.charge else none
    props :=
      (if a.radical ≠ Radical.rnone
        then [("radial", radicalCode a.radical)] else []) ++
      (if a.hydrogens1 ≠ 0 then [("hydrogen_count", a.hydrogens1)] else []) ++
      (if a.hydrogens2 ≠ 0 then [("deuterium_count", a.hydrogens2)] else []) ++
      (if a.hydrogens3 ≠ 0 then [("tritium_count", a.hydrogens3)] else []) }

/-! ### Read path: stereocenters (`InChIFormat::read_next`) -/

inductive IXATopology where
  | tetrahedron
  | rectangle
  | antirectangle
  | invalid
  deriving DecidableEq, Repr

inductive IXAParity where
  | even
  | odd
  | pnone
  | unknown
  deriving DecidableEq, Repr

/-- The internal bond orders targeted by the stereo read path. -/
inductive RBondOrder where
  | double
  | evenRectangle
  | oddRectangle
  deriving DecidableEq, Repr

/-- The effect of processing one stereo descriptor on the frame. -/
inductive StereoAction where
  | setChirality (atomIdx : Nat) (value : String)
  | replaceBond (a1 : Nat) (a2 : Nat) (order : RBondOrder)
  | noAction
  deriving DecidableEq, Repr

/-- The parity dispatch inside the shared tetrahedron block of
`read_next` (the final `else` covers `IXA_STEREO_PARITY_UNKNOWN`). -/
def parityTag (p : IXAParity) : String :=
  if p = .even then "even"
  else if p = .odd then "odd"
  else if p = .pnone then "none"
  else "unknown"

/-- The code shared by the tetrahedron case and (through the switch
fallthrough) the antirectangle case of `read_next`: store
`center_type ++ parity` as the `chirality` property of the central
atom. -/
def tetrahedronCase (center_type : String) (central : Nat)
    (p : IXAParity) : StereoAction :=
  .setChirality central (center_type ++ parityTag p)

/-- The stereo `switch` of `InChIFormat::read_next`, for one stereo
descriptor with the given topology, parity, central atom index and
central bond. The antirectangle case overwrites `center_type` and falls
through into the tetrahedron case; the rectangle case rewrites the
central bond's order (nothing happens for parity `none` there); any other
topology does nothing. -/
def processStereo (topo : IXATopology) (p : IXAParity) (central : Nat)
    (centralBond : Nat × Nat) : StereoAction :=
  match topo with
  | .antirectangle => tetrahedronCase "antirectangle_" central p
  | .tetrahedron => tetrahedronCase "tetrahedron_" central p
  | .rectangle =>
    if p = .even then .replaceBond centralBond.1 centralBond.2 .evenRectangle
    else if p = .odd then .replaceBond centralBond.1 centralBond.2 .oddRectangle
    else if p = .unknown then .replaceBond centralBond.1 centralBond.2 .double
    else .noAction
  | .invalid => .noAction

/-! ### Frame delimiting (`InChIFormat::forward`) -/

/-- Substring search: does the haystack contain the needle? -/
def hasSubAux (needle : List Char) : List Char → Bool
  | [] => needle.isEmpty
  | c :: cs => needle.isPrefixOf (c :: cs) || hasSubAux needle cs

/-- `line.find("InChI=") != std::string::npos`. -/
def containsInChI (line : String) : Bool :=
  hasSubAux ("InChI=".data) line.data

/-- `InChIFormat::forward`: the remaining stream is a list of
(position, line) pairs; read lines until one contains `InChI=` and
return the position recorded just before reading it together with the
not-yet-read rest, or `none` at end of file. -/
def forward : List (Nat × String) → Option (Nat × List (Nat × String))
  | [] => none
  | (pos, line) :: rest =>
    if containsInChI line then some (pos, rest) else forward rest

/-! ## Theorems -/

/-- C1 (the code evaluated at the failing input): `parse<int8_t>("-129")`
asks for a value below the signed 8-bit minimum, yet no `ParseError` is
raised — `detail::convert_integer` checks the parsed `int64_t` only
against the target's maximum, so the value is returned implicitly
truncated by `static_cast` to `127`. -/
theorem parse_int8_below_min_truncates :
    parseSignedAs 8 ("-129".data) = .ok 127 ∧
    (-129 : Int) < intMinOf 8 ∧
    parseSignedAs 8 ("128".data) = .error (.valueOutOfRange 128) :=
  ⟨rfl, by decide, rfl⟩

/-- C9: a stereocenter with antirectangle topology falls through into the
tetrahedron case of `read_next`: for every parity it sets the same
atom-level `chirality` property on the central atom as a tetrahedral
center would, except that the string prefix is `antirectangle_` instead
of `tetrahedron_`. -/
theorem inchi_antirectangle_fallthrough (p : IXAParity) (central : Nat)
    (b : Nat × Nat) :
    ∃ suffix,
      processStereo .tetrahedron p central b =
        .setChirality central ("tetrahedron_" ++ suffix) ∧
      processStereo .antirectangle p central b =
        .setChirality central ("antirectangle_" ++ suffix) ∧
      suffix = parityTag p :=
  ⟨parityTag p, rfl, rfl, rfl⟩

/-- Membership in an all-or-nothing conditional singleton list. -/
theorem mem_if_singleton {c : Prop} [Decidable c] {x y : String × Nat} :
    (x ∈ if c then [y] else []) ↔ c ∧ x = y := by
  split <;> simp_all

theorem get_atom_props_mem (a : IXAAtom) (x : String × Nat) :
    x ∈ (get_atom a).props ↔
      (a.radical ≠ Radical.rnone ∧ x = ("radial", radicalCode a.radical)) ∨
      (a.hydrogens1 ≠ 0 ∧ x = ("hydrogen_count", a.hydrogens1)) ∨
      (a.hydrogens2 ≠ 0 ∧ x = ("deuterium_count", a.hydrogens2)) ∨
      (a.hydrogens3 ≠ 0 ∧ x = ("tritium_count", a.hydrogens3)) := by
  show x ∈ _ ++ _ ++ _ ++ _ ↔ _
  simp only [List.mem_append, mem_if_singleton, or_assoc]

/-- C7: on identifier read, `get_atom` sets the mass only when it differs
from the natural isotopic mass, the charge only when nonzero, the radical
property only when a radical state is present, and each hydrogen-isotope
count property only when nonzero; an absent property — never a sentinel —
represents "unset". -/
theorem inchi_atom_props_only_when_nondefault (a : IXAAtom) :
    ((get_atom a).massSet ≠ none ↔ a.mass ≠ IXA_ATOM_NATURAL_MASS) ∧
    ((get_atom a).chargeSet ≠ none ↔ a.charge ≠ 0) ∧
    ((∃ v, ("radial", v) ∈ (get_atom a).props) ↔ a.radical ≠ Radical.rnone) ∧
    ((∃ v, ("hydrogen_count", v) ∈ (get_atom a).props) ↔ a.hydrogens1 ≠ 0) ∧
    ((∃ v, ("deuterium_count", v) ∈ (get_atom a).props) ↔ a.hydrogens2 ≠ 0) ∧
    ((∃ v, ("tritium_count", v) ∈ (get_atom a).props) ↔ a.hydrogens3 ≠ 0) := by
  refine ⟨?_, ?_, ?_, ?_, ?_, ?_⟩
  · show (if a.mass ≠ IXA_ATOM_NATURAL_MASS then some a.mass else none) ≠ none ↔ _
    split <;> simp_all
  · show (if a.charge ≠ 0 then some a.charge else none) ≠ none ↔ _
    split <;> simp_all
  · constructor
    · rintro ⟨v, hv⟩
      rcases (get_atom_props_mem a _).mp hv with
        ⟨h, he⟩ | ⟨h, he⟩ | ⟨h, he⟩ | ⟨h, he⟩
      · exact h
      · simp at he
      · simp at he
      · simp at he
    · intro h
      exact ⟨radicalCode a.radical, (get_atom_props_mem a _).mpr (.inl ⟨h, rfl⟩)⟩
  · constructor
    · rintro ⟨v, hv⟩
      rcases (get_atom_props_mem a _).mp hv with
        ⟨h, he⟩ | ⟨h, he⟩ | ⟨h, he⟩ | ⟨h, he⟩
      · simp at he
      · exact h
      · simp at he
      · simp at he
    · intro h
      exact ⟨a.hydrogens1, (get_atom_props_mem a _).mpr (.inr (.inl ⟨h, rfl⟩))⟩
  · constructor
    · rintro ⟨v, hv⟩
      rcases (get_atom_props_mem a _).mp hv with
        ⟨h, he⟩ | ⟨h, he⟩ | ⟨h, he⟩ | ⟨h, he⟩
      · simp at he
      · simp at he
      · exact h
      · simp at he
    · intro h
      exact ⟨a.hydrogens2,
        (get_atom_props_mem a _).mpr (.inr (.inr (.inl ⟨h, rfl⟩)))⟩
  · constructor
    · rintro ⟨v, hv⟩
      rcases (get_atom_props_mem a _).mp hv with
        ⟨h, he⟩ | ⟨h, he⟩ | ⟨h, he⟩ | ⟨h, he⟩
      · simp at he
      · simp at he
      · simp at he
      · exact h
    · intro h
      exact ⟨a.hydrogens3,
        (get_atom_props_mem a _).mpr (.inr (.inr (.inr ⟨h, rfl⟩)))⟩

/-- C10: `InChIFormat::forward` returns the stream position of the next
line containing the substring `InChI=`, consuming any intervening lines,
and returns `none` exactly when end of file is reached without finding
such a line. -/
theorem inchi_forward_finds_next_identifier (file : List (Nat × String)) :
    (forward file = none ↔ ∀ e ∈ file, containsInChI e.2 = false) ∧
    (∀ pos rest, forward file = some (pos, rest) →
      ∃ pre line, file = pre ++ (pos, line) :: rest ∧
        containsInChI line = true ∧
        ∀ e ∈ pre, containsInChI e.2 = false) := by
  induction file with
  | nil => simp [forward]
  | cons hd tl ih =>
    obtain ⟨p, l⟩ := hd
    cases h : containsInChI l with
    | true =>
      have hval : forward ((p, l) :: tl) = some (p, tl) := by
        simp [forward, h]
      refine ⟨⟨fun hn => ?_, fun hall => ?_⟩, ?_⟩
      · rw [hval] at hn; cases hn
      · have := hall (p, l) (List.mem_cons_self _ _)
        rw [h] at this; cases this
      · intro pos rest hsome
        rw [hval] at hsome
        simp only [Option.some.injEq, Prod.mk.injEq] at hsome
        obtain ⟨rfl, rfl⟩ := hsome
        exact ⟨[], l, by simp, h, by simp⟩
    | false =>
      have hfwd : forward ((p, l) :: tl) = forward tl := by
        simp [forward, h]
      refine ⟨?_, ?_⟩
      · rw [hfwd, ih.1]
        constructor
        · intro hall e he
          rcases List.mem_cons.mp he with rfl | he'
          · exact h
          · exact hall e he'
        · intro hall e he
          exact hall e (List.mem_cons_of_mem _ he)
      · intro pos rest hsome
        rw [hfwd] at hsome
        obtain ⟨pre, line, heq, hline, hpre⟩ := ih.2 pos rest hsome
        refine ⟨(p, l) :: pre, line, by simp [heq], hline, ?_⟩
        intro e he
        rcases List.mem_cons.mp he with rfl | he'
        · exact h
        · exact hpre e he'

theorem dropWhile_head_false {p : Char → Bool} :
    ∀ {l c cs}, List.dropWhile p l = c :: cs → p c = false := by
  intro l
  induction l with
  | nil => intro c cs h; cases h
  | cons a as ih =>
    intro c cs h
    rw [List.dropWhile_cons] at h
    split at h
    · exact ih h
    · rename_i hpa
      injection h with h1 _
      subst h1
      simpa using hpa

theorem fieldsAux_ws_cons {c : Char} (h : is_whitespace c = true)
    (l : List Char) : fieldsAux (c :: l) [] = fieldsAux l [] := by
  simp [fieldsAux, h]

theorem fieldsAux_acc (l : List Char) :
    ∀ acc, acc.isEmpty = false →
      fieldsAux l acc =
        (acc.reverse ++ l.takeWhile (fun c => !is_whitespace c)) ::
          fieldsAux (l.dropWhile (fun c => !is_whitespace c)) [] := by
  induction l with
  | nil =>
    intro acc hacc
    simp [fieldsAux, hacc]
  | cons c cs ih =>
    intro acc hacc
    cases hw : is_whitespace c with
    | true =>
      show fieldsAux (c :: cs) acc = _
      simp only [fieldsAux, hw, hacc, List.takeWhile_cons, List.dropWhile_cons,
        Bool.not_true, if_true, if_false, Bool.false_eq_true, List.append_nil]
      simp [hacc]
    | false =>
      show fieldsAux (c :: cs) acc = _
      simp only [fieldsAux, hw, List.takeWhile_cons, List.dropWhile_cons,
        Bool.not_false, if_true, if_false, Bool.false_eq_true]
      rw [ih (c :: acc) rfl]
      simp

theorem fieldsOf_dropWhile_ws (l : List Char) :
    fieldsOf (l.dropWhile is_whitespace) = fieldsOf l := by
  induction l with
  | nil => rfl
  | cons c cs ih =>
    cases hw : is_whitespace c with
    | true =>
      rw [List.dropWhile_cons, if_pos hw, ih]
      exact (fieldsAux_ws_cons hw cs).symm
    | false =>
      rw [List.dropWhile_cons, if_neg (by simp [hw])]

theorem nextTok_none_fieldsOf {l : List Char} (h : nextTok l = none) :
    fieldsOf l = [] := by
  cases hd : l.dropWhile is_whitespace with
  | nil =>
    rw [← fieldsOf_dropWhile_ws l, hd]
    rfl
  | cons c cs =>
    exfalso
    have hc : is_whitespace c = false := dropWhile_head_false hd
    simp [nextTok, hd, List.takeWhile_cons, hc] at h

theorem nextTok_some_fieldsOf {l tok rest : List Char}
    (h : nextTok l = some (tok, rest)) :
    fieldsOf l = tok :: fieldsOf rest := by
  cases hd : l.dropWhile is_whitespace with
  | nil => simp [nextTok, hd] at h
  | cons c cs =>
    have hc : is_whitespace c = false := dropWhile_head_false hd
    simp only [nextTok, hd, List.takeWhile_cons, List.dropWhile_cons, hc,
      Bool.not_false, if_true, List.isEmpty_cons, Bool.false_eq_true,
      if_false, Option.some.injEq, Prod.mk.injEq] at h
    obtain ⟨htok, hrest⟩ := h
    rw [← fieldsOf_dropWhile_ws l, hd]
    show fieldsAux (c :: cs) [] = tok :: fieldsOf rest
    simp only [fieldsAux, hc, Bool.false_eq_true, if_false]
    rw [fieldsAux_acc cs (c :: []) rfl, ← htok, ← hrest]
    simp [fieldsOf]

theorem scanImpl_out_of_fields :
    ∀ (slots : List SlotKind) (it : TokIter),
      (fieldsOf it.rest).length < slots.length →
      List.Forall₂ (fun s f => (parseSlot s f).isOk = true)
        (slots.take (fieldsOf it.rest).length) (fieldsOf it.rest) →
      scanImpl it slots =
        .error (.notEnough (it.count + (fieldsOf it.rest).length + 1)
                           (it.count + (fieldsOf it.rest).length)) := by
  intro slots
  induction slots with
  | nil =>
    intro it hlen _
    exact absurd hlen (by simp)
  | cons s slots ih =>
    intro it hlen hpar
    cases hnt : nextTok it.rest with
    | none =>
      have hf : fieldsOf it.rest = [] := nextTok_none_fieldsOf hnt
      rw [hf]
      simp [scanImpl, TokIter.next, hnt]
    | some pr =>
      obtain ⟨tok, rest'⟩ := pr
      have hf : fieldsOf it.rest = tok :: fieldsOf rest' :=
        nextTok_some_fieldsOf hnt
      rw [hf] at hlen hpar ⊢
      rw [List.length_cons] at hlen hpar ⊢
      rw [List.take_succ_cons, List.forall₂_cons] at hpar
      obtain ⟨hok, hpar'⟩ := hpar
      have hnext : TokIter.next it = .ok (tok, ⟨rest', it.count + 1⟩) := by
        simp [TokIter.next, hnt]
      cases hps : parseSlot s tok with
      | error e => rw [hps] at hok; cases hok
      | ok v =>
        have hrec := ih ⟨rest', it.count + 1⟩
          (by simpa using Nat.lt_of_succ_lt_succ hlen) (by simpa using hpar')
        have e1 : it.count + 1 + (fieldsOf rest').length =
            it.count + ((fieldsOf rest').length + 1) := by omega
        rw [show (TokIter.mk rest' (it.count + 1)).count = it.count + 1 from rfl,
          show (TokIter.mk rest' (it.count + 1)).rest = rest' from rfl, e1] at hrec
        simp only [scanImpl, hnext, hps, hrec]

/-- C2 (amended): any failure inside `scan` is wrapped in an error carrying
the whole original line; and when the line holds `k` fields, fewer than the
`n` slots requested (the present fields parsing fine), `scan` fails naming
the ordinal `k + 1` of the first missing field versus the `k` fields
available — which names `n` requested versus `n - 1` available exactly
when the line is one field short, as in the spec's example. -/
theorem scan_error_reporting :
    (∀ line slots e, scan line slots = .error e →
      ∃ inner, e = .scanError line inner) ∧
    (∀ line slots, (fieldsOf line).length < slots.length →
      List.Forall₂ (fun s f => (parseSlot s f).isOk = true)
        (slots.take (fieldsOf line).length) (fieldsOf line) →
      scan line slots =
        .error (.scanError line
          (.notEnough ((fieldsOf line).length + 1) (fieldsOf line).length))) := by
  constructor
  · intro line slots e h
    unfold scan at h
    cases hs : scanImpl ⟨line, 0⟩ slots with
    | error e' =>
      rw [hs] at h
      exact ⟨e', (Except.error.inj h).symm⟩
    | ok p =>
      rw [hs] at h
      cases h
  · intro line slots hlen hpar
    have hmain := scanImpl_out_of_fields slots ⟨line, 0⟩ hlen hpar
    unfold scan
    rw [hmain]
    simp

/-- C2 witness: both parts of the amended claim at concrete inputs — a
field-level parse failure wrapped with the line, and `scan("1 2", a, b, c)`
failing naming 3 requested versus 2 available. -/
theorem scan_error_reporting_witness :
    (∃ inner, Err.scanError ("1 a".data) (.cannotConvert ("a".data) "integer") =
      .scanError ("1 a".data) inner) ∧
    scan ("1 2".data) [SlotKind.sint 64, .sint 64, .sint 64] =
      .error (.scanError ("1 2".data) (.notEnough 3 2)) := by
  constructor
  · exact scan_error_reporting.1 ("1 a".data) [SlotKind.sint 64, .sint 64]
      (.scanError ("1 a".data) (.cannotConvert ("a".data) "integer")) rfl
  · exact scan_error_reporting.2 ("1 2".data)
      [SlotKind.sint 64, .sint 64, .sint 64] (by decide)
      (List.Forall₂.cons (by decide) (List.Forall₂.cons (by decide)
        List.Forall₂.nil))

/-- C2 counterexample: scanning the one-field line `"1"` into three slots
does not produce an error naming 3 requested versus 1 available — the
error produced names 2 (the ordinal of the first missing field) versus 1,
refuting the claim that the error always names the total number of
requested fields. -/
theorem scan_requested_count_counterexample :
    scan ("1".data) [SlotKind.sint 64, .sint 64, .sint 64] =
      .error (.scanError ("1".data) (.notEnough 2 1)) ∧
    Err.scanError ("1".data) (.notEnough 2 1) ≠
      Err.scanError ("1".data) (.notEnough 3 1) :=
  ⟨rfl, by decide⟩

/-- C10 witness. -/
theorem inchi_forward_finds_next_identifier_witness :
    ∃ pre line,
      [(0, "junk"), (9, "xInChI=1S/CH4")] = pre ++ (9, line) :: [] ∧
      containsInChI line = true ∧
      ∀ e ∈ pre, containsInChI e.2 = false :=
  (inchi_forward_finds_next_identifier [(0, "junk"), (9, "xInChI=1S/CH4")]).2
    9 [] rfl

/-- C8: when a tetrahedral stereocenter is constructed with exactly three
explicit neighbors (the fourth vertex being the implicit-hydrogen marker),
or with a fourth neighbor whose atomic number is 1 (hydrogen), the first
and fourth vertices are swapped before the stereocenter is created, so the
hydrogen or implicit-hydrogen vertex occupies the first position; with a
non-hydrogen fourth neighbor no swap happens. -/
theorem inchi_tetrahedron_hydrogen_swap (atNums : List Nat) (center : Nat)
    (a : List Nat) (parity : String) :
    (∀ n1 n2 n3, a = [n1, n2, n3] →
      create_stereo_tetrahedron atNums center a parity =
        .ok ⟨center, .implicitH, .atomIdx n2, .atomIdx n3, .atomIdx n1,
             parityOfString parity⟩) ∧
    (∀ n1 n2 n3 n4 rest, a = n1 :: n2 :: n3 :: n4 :: rest →
      atNums.getD n4 0 = 1 →
      create_stereo_tetrahedron atNums center a parity =
        .ok ⟨center, .atomIdx n4, .atomIdx n2, .atomIdx n3, .atomIdx n1,
             parityOfString parity⟩) ∧
    (∀ n1 n2 n3 n4 rest, a = n1 :: n2 :: n3 :: n4 :: rest →
      atNums.getD n4 0 ≠ 1 →
      create_stereo_tetrahedron atNums center a parity =
        .ok ⟨center, .atomIdx n1, .atomIdx n2, .atomIdx n3, .atomIdx n4,
             parityOfString parity⟩) := by
  refine ⟨?_, ?_, ?_⟩
  · rintro n1 n2 n3 rfl
    rfl
  · rintro n1 n2 n3 n4 rest rfl h
    have h' : atNums[n4]?.getD 0 = 1 := by simpa [List.getD] using h
    simp [create_stereo_tetrahedron, h']
  · rintro n1 n2 n3 n4 rest rfl h
    have h' : ¬atNums[n4]?.getD 0 = 1 := by simpa [List.getD] using h
    simp [create_stereo_tetrahedron, h']

/-- C8 witness: the three cases at concrete inputs. -/
theorem inchi_tetrahedron_hydrogen_swap_witness :
    create_stereo_tetrahedron [6, 8, 7, 9] 9 [5, 6, 7] "even" =
      .ok ⟨9, .implicitH, .atomIdx 6, .atomIdx 7, .atomIdx 5,
           StereoParity.even⟩ ∧
    create_stereo_tetrahedron [6, 8, 7, 1] 9 [0, 1, 2, 3] "odd" =
      .ok ⟨9, .atomIdx 3, .atomIdx 1, .atomIdx 2, .atomIdx 0,
           StereoParity.odd⟩ ∧
    create_stereo_tetrahedron [6, 8, 7, 9] 9 [0, 1, 2, 3] "odd" =
      .ok ⟨9, .atomIdx 0, .atomIdx 1, .atomIdx 2, .atomIdx 3,
           StereoParity.odd⟩ :=
  ⟨(inchi_tetrahedron_hydrogen_swap [6, 8, 7, 9] 9 [5, 6, 7] "even").1
      5 6 7 rfl,
   (inchi_tetrahedron_hydrogen_swap [6, 8, 7, 1] 9 [0, 1, 2, 3] "odd").2.1
      0 1 2 3 [] rfl rfl,
   (inchi_tetrahedron_hydrogen_swap [6, 8, 7, 9] 9 [0, 1, 2, 3] "odd").2.2
      0 1 2 3 [] rfl (by decide)⟩

theorem create_stereo_center {atNums : List Nat} {center : Nat}
    {a : List Nat} {parity : String} {s : TStereo}
    (h : create_stereo_tetrahedron atNums center a parity = .ok s) :
    s.center = center := by
  rcases a with _ | ⟨n1, _ | ⟨n2, _ | ⟨n3, _ | ⟨n4, rest⟩⟩⟩⟩
  · simp [create_stereo_tetrahedron] at h
  · simp [create_stereo_tetrahedron] at h
  · simp [create_stereo_tetrahedron] at h
  · rw [show create_stereo_tetrahedron atNums center [n1, n2, n3] parity =
      .ok ⟨center, .implicitH, .atomIdx n2, .atomIdx n3, .atomIdx n1,
           parityOfString parity⟩ from rfl] at h
    injection h with h'
    subst h'
    rfl
  · rw [show create_stereo_tetrahedron atNums center
        (n1 :: n2 :: n3 :: n4 :: rest) parity =
      (if atNums.getD n4 0 == 1 then
        .ok ⟨center, .atomIdx n4, .atomIdx n2, .atomIdx n3, .atomIdx n1,
             parityOfString parity⟩
      else
        .ok ⟨center, .atomIdx n1, .atomIdx n2, .atomIdx n3, .atomIdx n4,
             parityOfString parity⟩) from rfl] at h
    split at h <;> (injection h with h'; subst h'; rfl)

theorem create_stereo_ok (atNums : List Nat) (center : Nat) (a : List Nat)
    (parity : String) (h3 : 3 ≤ a.length) :
    ∃ s, create_stereo_tetrahedron atNums center a parity = .ok s := by
  rcases a with _ | ⟨n1, _ | ⟨n2, _ | ⟨n3, _ | ⟨n4, rest⟩⟩⟩⟩
  · simp at h3
  · simp at h3
  · simp at h3
  · exact ⟨_, rfl⟩
  · rw [show create_stereo_tetrahedron atNums center
        (n1 :: n2 :: n3 :: n4 :: rest) parity =
      (if atNums.getD n4 0 == 1 then
        .ok ⟨center, .atomIdx n4, .atomIdx n2, .atomIdx n3, .atomIdx n1,
             parityOfString parity⟩
      else
        .ok ⟨center, .atomIdx n1, .atomIdx n2, .atomIdx n3, .atomIdx n4,
             parityOfString parity⟩) from rfl]
    split
    · exact ⟨_, rfl⟩
    · exact ⟨_, rfl⟩

theorem writeAtomStereo_warn (atNums : List Nat) (bonds : List (Nat × Nat))
    (i : Nat) (a : WAtom)
    (hs : strStartsWith (a.chirality.getD "") "tetrahedron" = true)
    (hle : (neighborsOf i bonds).length ≤ 2) :
    writeAtomStereo atNums bonds i a = .ok ⟨[warnUnderConnected], none, 0⟩ := by
  unfold writeAtomStereo
  rw [if_pos hs, if_pos hle]

theorem writeAtomStereo_center {atNums : List Nat} {bonds : List (Nat × Nat)}
    {i : Nat} {a : WAtom} {st : StereoStep} {s : TStereo}
    (h : writeAtomStereo atNums bonds i a = .ok st)
    (hst : st.stereo = some s) : s.center = i := by
  unfold writeAtomStereo at h
  by_cases hc : strStartsWith (a.chirality.getD "") "tetrahedron" = true
  · rw [if_pos hc] at h
    by_cases hle : (neighborsOf i bonds).length ≤ 2
    · rw [if_pos hle] at h
      injection h with h'
      subst h'
      simp at hst
    · rw [if_neg hle] at h
      cases hsub : substrFrom (a.chirality.getD "") 12 with
      | error e => rw [hsub] at h; simp at h
      | ok parity =>
        rw [hsub] at h
        dsimp only at h
        cases hcr : create_stereo_tetrahedron atNums i
            (neighborsOf i bonds) parity with
        | error e => rw [hcr] at h; simp at h
        | ok s' =>
          rw [hcr] at h
          dsimp only at h
          injection h with h'
          subst h'
          simp only [Option.some.injEq] at hst
          subst hst
          exact create_stereo_center hcr
  · rw [if_neg hc] at h
    injection h with h'
    subst h'
    simp at hst

theorem writeAtomStereo_isOk (atNums : List Nat) (bonds : List (Nat × Nat))
    (i : Nat) (a : WAtom)
    (hwf : strStartsWith (a.chirality.getD "") "tetrahedron" = true →
      12 ≤ (a.chirality.getD "").length) :
    ∃ st, writeAtomStereo atNums bonds i a = .ok st := by
  unfold writeAtomStereo
  by_cases hc : strStartsWith (a.chirality.getD "") "tetrahedron" = true
  · rw [if_pos hc]
    by_cases hle : (neighborsOf i bonds).length ≤ 2
    · rw [if_pos hle]
      exact ⟨_, rfl⟩
    · rw [if_neg hle]
      have h12 := hwf hc
      have hsub : substrFrom (a.chirality.getD "") 12 =
          .ok (String.mk ((a.chirality.getD "").data.drop 12)) := by
        unfold substrFrom
        rw [if_neg (by omega)]
      rw [hsub]
      dsimp only
      obtain ⟨s, hcr⟩ := create_stereo_ok atNums i (neighborsOf i bonds)
        (String.mk ((a.chirality.getD "").data.drop 12)) (by omega)
      rw [hcr]
      exact ⟨_, rfl⟩
  · rw [if_neg hc]
    exact ⟨_, rfl⟩

theorem writeAtomStereo_no_bonds (atNums : List Nat) (i : Nat) (a : WAtom) :
    ∃ st, writeAtomStereo atNums [] i a = .ok st ∧
      st.attempts = 0 ∧ st.stereo = none := by
  unfold writeAtomStereo
  by_cases hc : strStartsWith (a.chirality.getD "") "tetrahedron" = true
  · rw [if_pos hc, if_pos (by simp [neighborsOf])]
    exact ⟨_, rfl, rfl, rfl⟩
  · rw [if_neg hc]
    exact ⟨_, rfl, rfl, rfl⟩

theorem writeStereoLoop_ok (atNums : List Nat) (bonds : List (Nat × Nat)) :
    ∀ l : List (Nat × WAtom),
      (∀ p ∈ l, ∃ st, writeAtomStereo atNums bonds p.1 p.2 = .ok st) →
      ∃ r, writeStereoLoop atNums bonds l = .ok r ∧
        (∀ s ∈ r.stereos, ∃ p ∈ l, ∃ st,
          writeAtomStereo atNums bonds p.1 p.2 = .ok st ∧
          st.stereo = some s) ∧
        (∀ p ∈ l, ∀ st, writeAtomStereo atNums bonds p.1 p.2 = .ok st →
          ∀ w ∈ st.warnings, w ∈ r.warnings) := by
  intro l
  induction l with
  | nil =>
    exact fun _ => ⟨⟨[], [], 0⟩, rfl, by simp, by simp⟩
  | cons hd tl ih =>
    intro hok
    obtain ⟨i, a⟩ := hd
    obtain ⟨st, hst⟩ := hok (i, a) (List.mem_cons_self _ _)
    obtain ⟨r, hr, hrs, hrw⟩ := ih (fun p hp => hok p (List.mem_cons_of_mem _ hp))
    refine ⟨⟨st.warnings ++ r.warnings, st.stereo.toList ++ r.stereos,
             st.attempts + r.attempts⟩, ?_, ?_, ?_⟩
    · show writeStereoLoop _ _ ((i, a) :: tl) = _
      unfold writeStereoLoop
      rw [hst, hr]
    · intro s hs
      rcases List.mem_append.mp hs with hmem | hmem
      · refine ⟨(i, a), List.mem_cons_self _ _, st, hst, ?_⟩
        cases hx : st.stereo with
        | none => rw [hx] at hmem; cases hmem
        | some s' =>
          rw [hx, Option.toList_some] at hmem
          have he : s = s' := List.mem_singleton.mp hmem
          rw [he]
      · obtain ⟨p, hp, st', h1, h2⟩ := hrs s hmem
        exact ⟨p, List.mem_cons_of_mem _ hp, st', h1, h2⟩
    · intro p hp st' hst' w hw
      rcases List.mem_cons.mp hp with rfl | hp'
      · rw [hst] at hst'
        injection hst' with h'
        exact List.mem_append.mpr (Or.inl (h' ▸ hw))
      · exact List.mem_append.mpr (Or.inr (hrw p hp' st' hst' w hw))

theorem mem_enumFrom {α : Type} {l : List α} :
    ∀ {n j : Nat} {b : α}, (j, b) ∈ enumFrom n l →
      n ≤ j ∧ l.get? (j - n) = some b := by
  induction l with
  | nil => intro n j b h; cases h
  | cons a as ih =>
    intro n j b h
    rcases List.mem_cons.mp h with heq | hmem
    · injection heq with h1 h2
      subst h1
      subst h2
      exact ⟨Nat.le_refl _, by simp⟩
    · obtain ⟨hle, hget⟩ := ih hmem
      refine ⟨by omega, ?_⟩
      rw [show j - n = (j - (n + 1)) + 1 from by omega, List.get?_cons_succ]
      exact hget

theorem enumFrom_mem_of_get? {α : Type} {l : List α} :
    ∀ {n i : Nat} {b : α}, l.get? i = some b → (n + i, b) ∈ enumFrom n l := by
  induction l with
  | nil => intro n i b h; simp at h
  | cons a as ih =>
    intro n i b h
    cases i with
    | zero =>
      rw [List.get?_cons_zero, Option.some.injEq] at h
      subst h
      exact List.mem_cons_self _ _
    | succ k =>
      rw [List.get?_cons_succ] at h
      have hmem := ih (n := n + 1) h
      rw [show n + (k + 1) = n + 1 + k from by omega]
      exact List.mem_cons_of_mem _ hmem

theorem snd_mem_of_mem_enumFrom {α : Type} {l : List α} {n j : Nat} {b : α}
    (h : (j, b) ∈ enumFrom n l) : b ∈ l :=
  List.get?_mem (mem_enumFrom h).2

theorem dist2_self (p : Vec3) : dist2 p p = 0 := by
  unfold dist2
  ring

theorem dist2_comm (p q : Vec3) : dist2 p q = dist2 q p := by
  unfold dist2
  ring

theorem epsSq_nonneg : (0 : Rat) ≤ epsSq := by
  norm_num [epsSq]

theorem dist2_triangle4 {p0 p q : Vec3} (hp : dist2 p0 p ≤ epsSq)
    (hq : dist2 p0 q ≤ epsSq) : dist2 p q ≤ 4 * epsSq := by
  have key : dist2 p q ≤ 2 * dist2 p0 p + 2 * dist2 p0 q := by
    unfold dist2
    nlinarith [sq_nonneg ((p0.x - p.x) + (p0.x - q.x)),
               sq_nonneg ((p0.y - p.y) + (p0.y - q.y)),
               sq_nonneg ((p0.z - p.z) + (p0.z - q.z))]
  linarith

theorem is_zero_of_small (f : WFrame) (h : f.atoms.length ≤ 1) :
    is_zero_dimensions f = true := by
  unfold is_zero_dimensions
  have hc : (f.atoms.length == 0 || f.atoms.length == 1) = true := by
    have h01 : f.atoms.length = 0 ∨ f.atoms.length = 1 := by omega
    rcases h01 with h0 | h1
    · simp [h0]
    · simp [h1]
  rw [if_pos hc]

theorem is_zero_close {f : WFrame} (h2 : 2 ≤ f.atoms.length)
    (hz : is_zero_dimensions f = true) (p0 : Vec3) (rest : List Vec3)
    (hpos : f.positions = p0 :: rest) :
    ∀ p ∈ rest, dist2 p0 p ≤ epsSq := by
  intro p hp
  unfold is_zero_dimensions at hz
  have hc : ¬((f.atoms.length == 0 || f.atoms.length == 1) = true) := by
    intro hcon
    have : f.atoms.length = 0 ∨ f.atoms.length = 1 := by simpa using hcon
    omega
  rw [if_neg hc, hpos] at hz
  have := List.all_eq_true.mp hz p hp
  exact of_decide_eq_true this

/-- C5: explicit stereocenter construction is attempted only for a
degenerate-geometry Frame — a non-degenerate Frame constructs no
stereocenter at all; a Frame with 0 or 1 atoms is degenerate by definition
and never reaches `create_stereo_tetrahedron`; and whenever a construction
is attempted the geometry really is degenerate, with every pair of
positions within `2 * eps` of each other (squared distance at most
`4 * epsSq`). -/
theorem inchi_stereo_only_when_degenerate (f : WFrame) :
    (is_zero_dimensions f = false → write_next f = .ok ⟨[], [], 0⟩) ∧
    (f.atoms.length ≤ 1 → is_zero_dimensions f = true) ∧
    (f.atoms.length ≤ 1 → f.valid →
      ∃ r, write_next f = .ok r ∧ r.attempts = 0 ∧ r.stereos = []) ∧
    (f.valid → ∀ r, write_next f = .ok r → 0 < r.attempts →
      is_zero_dimensions f = true ∧
      ∀ p ∈ f.positions, ∀ q ∈ f.positions, dist2 p q ≤ 4 * epsSq) := by
  refine ⟨?_, is_zero_of_small f, ?_, ?_⟩
  · intro h
    unfold write_next
    rw [if_neg (by simp [h])]
  · intro h1 hv
    have hz := is_zero_of_small f h1
    rcases hA : f.atoms with _ | ⟨a0, arest⟩
    · refine ⟨⟨[], [], 0⟩, ?_, rfl, rfl⟩
      unfold write_next
      rw [if_pos hz, show enumFrom 0 f.atoms = [] from by rw [hA]; rfl]
      rfl
    · have harest : arest = [] := by
        rcases arest with _ | ⟨x, xs⟩
        · rfl
        · rw [hA] at h1
          simp at h1
      subst harest
      have hb : f.bonds = [] := by
        rcases hbnd : f.bonds with _ | ⟨b, bs⟩
        · rfl
        · exfalso
          obtain ⟨hb1, hb2, hb3⟩ := hv.2 b (by rw [hbnd]; exact List.mem_cons_self _ _)
          rw [hA] at hb1 hb2
          simp at hb1 hb2
          omega
      obtain ⟨st, hst, hat, hso⟩ :=
        writeAtomStereo_no_bonds (f.atoms.map (fun x => x.atomicNumber.getD 0)) 0 a0
      refine ⟨⟨st.warnings ++ [], st.stereo.toList ++ [], st.attempts + 0⟩,
        ?_, by simpa using hat, by simp [hso]⟩
      unfold write_next
      rw [if_pos hz, show enumFrom 0 f.atoms = [(0, a0)] from by rw [hA]; rfl]
      unfold writeStereoLoop
      rw [hb, hst]
      rfl
  · intro hv r hw hatt
    cases hz : is_zero_dimensions f with
    | false =>
      exfalso
      unfold write_next at hw
      rw [if_neg (by simp [hz])] at hw
      injection hw with h'
      rw [← h'] at hatt
      simp at hatt
    | true =>
      refine ⟨rfl, ?_⟩
      intro p hp q hq
      have heps := epsSq_nonneg
      by_cases hlen : f.atoms.length ≤ 1
      · have hple : f.positions.length ≤ 1 := by rw [hv.1]; exact hlen
        rcases hP : f.positions with _ | ⟨x, _ | ⟨y, t⟩⟩
        · rw [hP] at hp
          cases hp
        · rw [hP] at hp hq
          rw [List.mem_singleton.mp hp, List.mem_singleton.mp hq, dist2_self]
          linarith
        · rw [hP] at hple
          simp at hple
      · have h2 : 2 ≤ f.atoms.length := by omega
        rcases hP : f.positions with _ | ⟨p0, rest⟩
        · rw [hP] at hp
          cases hp
        · have hclose := is_zero_close h2 hz p0 rest hP
          rw [hP] at hp hq
          rcases List.mem_cons.mp hp with rfl | hp' <;>
            rcases List.mem_cons.mp hq with rfl | hq'
          · rw [dist2_self]
            linarith
          · have := hclose q hq'
            linarith
          · have := hclose p hp'
            rw [dist2_comm]
            linarith
          · exact dist2_triangle4 (hclose p hp') (hclose q hq')

/-- C5 witness: a non-degenerate two-atom frame constructs nothing; a
one-atom frame is degenerate by definition and its write makes no
stereocenter-construction attempt. -/
theorem inchi_stereo_only_when_degenerate_witness :
    (write_next ⟨[⟨some 6, some "tetrahedron_even"⟩, ⟨some 1, none⟩],
        [⟨0, 0, 0⟩, ⟨3, 0, 0⟩], [(0, 1)]⟩ = .ok ⟨[], [], 0⟩) ∧
    (is_zero_dimensions ⟨[⟨some 6, some "tetrahedron_even"⟩], [⟨0, 0, 0⟩], []⟩
        = true) ∧
    (∃ r, write_next ⟨[⟨some 6, some "tetrahedron_even"⟩], [⟨0, 0, 0⟩], []⟩ =
        .ok r ∧ r.attempts = 0 ∧ r.stereos = []) :=
  ⟨(inchi_stereo_only_when_degenerate _).1
      (by norm_num [is_zero_dimensions, dist2, epsSq]),
   (inchi_stereo_only_when_degenerate _).2.1 (by decide),
   (inchi_stereo_only_when_degenerate _).2.2.1 (by decide)
     ⟨rfl, by intro b hb; simp at hb⟩⟩

/-- C6: in a degenerate-geometry frame, an atom carrying a `tetrahedron`
chirality property but having at most 2 bonded neighbors produces the
under-connected warning and no stereocenter centered on it, while the
write as a whole still completes successfully. -/
theorem inchi_underconnected_chirality_warning (f : WFrame) (i : Nat)
    (a : WAtom)
    (hdeg : is_zero_dimensions f = true)
    (hget : f.atoms.get? i = some a)
    (hchir : strStartsWith (a.chirality.getD "") "tetrahedron" = true)
    (hadj : (neighborsOf i f.bonds).length ≤ 2)
    (hwf : ∀ b ∈ f.atoms,
      strStartsWith (b.chirality.getD "") "tetrahedron" = true →
      12 ≤ (b.chirality.getD "").length) :
    ∃ r, write_next f = .ok r ∧ warnUnderConnected ∈ r.warnings ∧
      ∀ s ∈ r.stereos, s.center ≠ i := by
  have hallok : ∀ p ∈ enumFrom 0 f.atoms, ∃ st,
      writeAtomStereo (f.atoms.map (fun x => x.atomicNumber.getD 0))
        f.bonds p.1 p.2 = .ok st := by
    intro p hp
    obtain ⟨j, b⟩ := p
    exact writeAtomStereo_isOk _ _ j b (hwf b (snd_mem_of_mem_enumFrom hp))
  obtain ⟨r, hr, hrs, hrw⟩ := writeStereoLoop_ok
    (f.atoms.map (fun x => x.atomicNumber.getD 0)) f.bonds _ hallok
  have hmem : (i, a) ∈ enumFrom 0 f.atoms := by
    have := enumFrom_mem_of_get? (n := 0) hget
    simpa using this
  refine ⟨r, ?_, ?_, ?_⟩
  · unfold write_next
    rw [if_pos hdeg]
    exact hr
  · exact hrw (i, a) hmem ⟨[warnUnderConnected], none, 0⟩
      (writeAtomStereo_warn _ f.bonds i a hchir hadj)
      warnUnderConnected (List.mem_singleton.mpr rfl)
  · intro s hs hcen
    obtain ⟨p, hp, st, h1, h2⟩ := hrs s hs
    obtain ⟨j, b⟩ := p
    have hcj : s.center = j := writeAtomStereo_center h1 h2
    have hji : j = i := by rw [← hcj, hcen]
    subst hji
    have hgb := (mem_enumFrom hp).2
    rw [Nat.sub_zero, hget] at hgb
    have hba : a = b := by injection hgb
    subst hba
    have hwarn := writeAtomStereo_warn
      (f.atoms.map (fun x => x.atomicNumber.getD 0)) f.bonds j a hchir hadj
    rw [hwarn] at h1
    injection h1 with h1'
    rw [← h1'] at h2
    simp at h2

/-- C6 witness: a three-atom degenerate frame whose first atom is marked
`tetrahedron_even` but has only 2 bonds. -/
theorem inchi_underconnected_chirality_warning_witness :
    ∃ r, write_next ⟨[⟨some 6, some "tetrahedron_even"⟩, ⟨some 8, none⟩,
        ⟨some 8, none⟩], [⟨0, 0, 0⟩, ⟨0, 0, 0⟩, ⟨0, 0, 0⟩],
        [(0, 1), (0, 2)]⟩ = .ok r ∧
      warnUnderConnected ∈ r.warnings ∧ ∀ s ∈ r.stereos, s.center ≠ 0 :=
  inchi_underconnected_chirality_warning _ 0 ⟨some 6, some "tetrahedron_even"⟩
    (by norm_num [is_zero_dimensions, dist2, epsSq]) rfl (by decide) (by decide)
    (by decide)

theorem offsetsFrom_length :
    ∀ (frames : List FrameRecord) (pos : Nat),
      (offsetsFrom pos frames).length = frames.length := by
  intro frames
  induction frames with
  | nil => intro pos; rfl
  | cons h rest ih =>
    intro pos
    simp [offsetsFrom, ih]

theorem resumeIndex_cons_none (h : FrameRecord) (rest : List FrameRecord)
    (pos : Nat) :
    resumeIndex (h :: rest) pos none =
      match resumeIndex rest (pos + h.size) (some h.natoms) with
      | .error e => .error e
      | .ok (offs, rgs, stop, nat') =>
        .ok (pos :: offs, (pos, pos + h.size) :: rgs, stop, nat') := rfl

theorem resumeIndex_cons_some (h : FrameRecord) (rest : List FrameRecord)
    (pos n : Nat) :
    resumeIndex (h :: rest) pos (some n) =
      if h.natoms ≠ n then .error (.formatError "inconsistent atom count")
      else
        match resumeIndex rest (pos + h.size) (some n) with
        | .error e => .error e
        | .ok (offs, rgs, stop, nat') =>
          .ok (pos :: offs, (pos, pos + h.size) :: rgs, stop, nat') := rfl

theorem resumeIndex_consistent :
    ∀ (frames : List FrameRecord) (pos n : Nat),
      (∀ g ∈ frames, g.natoms = n) →
      resumeIndex frames pos (some n) =
        .ok (offsetsFrom pos frames, rangesFrom pos frames,
             pos + totalSize frames, some n) := by
  intro frames
  induction frames with
  | nil =>
    intro pos n _
    simp [resumeIndex, offsetsFrom, rangesFrom, totalSize]
  | cons h rest ih =>
    intro pos n hall
    have hh : h.natoms = n := hall h (List.mem_cons_self _ _)
    rw [resumeIndex_cons_some, if_neg (by simp [hh]),
        ih (pos + h.size) n (fun g hg => hall g (List.mem_cons_of_mem _ hg))]
    dsimp only
    simp only [offsetsFrom, rangesFrom, totalSize, Except.ok.injEq,
      Prod.mk.injEq, true_and, and_true]
    omega

theorem resumeIndex_ok_shape :
    ∀ (frames : List FrameRecord) (pos : Nat) (nat : Option Nat)
      (offs : List Nat) (rgs : List (Nat × Nat)) (stop : Nat)
      (nat' : Option Nat),
      resumeIndex frames pos nat = .ok (offs, rgs, stop, nat') →
      offs = offsetsFrom pos frames ∧ rgs = rangesFrom pos frames ∧
      stop = pos + totalSize frames := by
  intro frames
  induction frames with
  | nil =>
    intro pos nat offs rgs stop nat' h
    unfold resumeIndex at h
    simp only [Except.ok.injEq, Prod.mk.injEq] at h
    obtain ⟨h1, h2, h3, -⟩ := h
    refine ⟨h1.symm, h2.symm, ?_⟩
    rw [← h3, show totalSize [] = 0 from rfl]
    omega
  | cons h rest ih =>
    intro pos nat offs rgs stop nat' hok
    cases nat with
    | some n =>
      rw [resumeIndex_cons_some] at hok
      by_cases hne : h.natoms ≠ n
      · rw [if_pos hne] at hok
        simp at hok
      · rw [if_neg hne] at hok
        cases hrec : resumeIndex rest (pos + h.size) (some n) with
        | error e => rw [hrec] at hok; simp at hok
        | ok q =>
          obtain ⟨offs', rgs', stop', nat''⟩ := q
          rw [hrec] at hok
          dsimp only at hok
          simp only [Except.ok.injEq, Prod.mk.injEq] at hok
          obtain ⟨h1, h2, h3, -⟩ := hok
          obtain ⟨g1, g2, g3⟩ := ih (pos + h.size) (some n) offs' rgs'
            stop' nat'' hrec
          refine ⟨?_, ?_, ?_⟩
          · rw [← h1, g1]
            rfl
          · rw [← h2, g2]
            rfl
          · rw [← h3, g3, show totalSize (h :: rest) = h.size + totalSize rest
              from rfl]
            omega
    | none =>
      rw [resumeIndex_cons_none] at hok
      cases hrec : resumeIndex rest (pos + h.size) (some h.natoms) with
      | error e => rw [hrec] at hok; simp at hok
      | ok q =>
        obtain ⟨offs', rgs', stop', nat''⟩ := q
        rw [hrec] at hok
        dsimp only at hok
        simp only [Except.ok.injEq, Prod.mk.injEq] at hok
        obtain ⟨h1, h2, h3, -⟩ := hok
        obtain ⟨g1, g2, g3⟩ := ih (pos + h.size) (some h.natoms) offs' rgs'
          stop' nat'' hrec
        refine ⟨?_, ?_, ?_⟩
        · rw [← h1, g1]
          rfl
        · rw [← h2, g2]
          rfl
        · rw [← h3, g3, show totalSize (h :: rest) = h.size + totalSize rest
            from rfl]
          omega

theorem rangesFrom_bounds :
    ∀ (frames : List FrameRecord) (pos : Nat),
      (∀ rg ∈ rangesFrom pos frames,
        pos ≤ rg.1 ∧ rg.2 ≤ pos + totalSize frames) ∧
      List.Pairwise (fun x y : Nat × Nat => x.2 ≤ y.1)
        (rangesFrom pos frames) := by
  intro frames
  induction frames with
  | nil =>
    intro pos
    constructor
    · intro rg hrg
      cases hrg
    · exact List.Pairwise.nil
  | cons h rest ih =>
    intro pos
    have htot : totalSize (h :: rest) = h.size + totalSize rest := rfl
    constructor
    · intro rg hrg
      rcases List.mem_cons.mp hrg with rfl | hmem
      · refine ⟨Nat.le_refl _, ?_⟩
        rw [htot]
        omega
      · obtain ⟨hm1, hm2⟩ := (ih (pos + h.size)).1 rg hmem
        refine ⟨by omega, ?_⟩
        rw [htot]
        omega
    · refine List.Pairwise.cons ?_ (ih (pos + h.size)).2
      intro y hy
      exact ((ih (pos + h.size)).1 y hy).1

theorem resumeIndex_mismatch :
    ∀ (frames : List FrameRecord) (pos n : Nat),
      (∃ g ∈ frames, g.natoms ≠ n) →
      resumeIndex frames pos (some n) =
        .error (.formatError "inconsistent atom count") := by
  intro frames
  induction frames with
  | nil =>
    intro pos n hex
    obtain ⟨g, hg, -⟩ := hex
    cases hg
  | cons p rest ih =>
    intro pos n hex
    by_cases hp : p.natoms ≠ n
    · rw [resumeIndex_cons_some, if_pos hp]
    · rw [resumeIndex_cons_some, if_neg hp]
      have hex' : ∃ g ∈ rest, g.natoms ≠ n := by
        obtain ⟨g, hg, hgn⟩ := hex
        rcases List.mem_cons.mp hg with rfl | hmem
        · exact absurd hgn hp
        · exact ⟨g, hmem, hgn⟩
      rw [ih (pos + p.size) n hex']

theorem resumeIndex_first_mismatch :
    ∀ (pre : List FrameRecord) (h : FrameRecord) (tail : List FrameRecord)
      (pos n : Nat),
      (∀ g ∈ pre, g.natoms = n) → h.natoms ≠ n →
      resumeIndex (pre ++ h :: tail) pos (some n) =
        .error (.formatError "inconsistent atom count") := by
  intro pre
  induction pre with
  | nil =>
    intro h tail pos n _ hne
    rw [List.nil_append, resumeIndex_cons_some, if_pos hne]
  | cons p pre' ih =>
    intro h tail pos n hall hne
    rw [List.cons_append, resumeIndex_cons_some,
        if_neg (by simp [hall p (List.mem_cons_self _ _)]),
        ih h tail (pos + p.size) n
          (fun g hg => hall g (List.mem_cons_of_mem _ hg)) hne]

theorem read_step_first_mismatch (h0 : FrameRecord) (pre : List FrameRecord)
    (h : FrameRecord) (tail : List FrameRecord) (step : Nat)
    (hall : ∀ g ∈ pre, g.natoms = h0.natoms) (hne : h.natoms ≠ h0.natoms)
    (hstep : pre.length + 1 ≤ step) :
    (TRRCodec.init (h0 :: (pre ++ h :: tail))).read_step step =
      .error (.formatError "inconsistent atom count") := by
  obtain ⟨k, hk⟩ : ∃ k, step - pre.length = k + 1 :=
    ⟨step - pre.length - 1, by omega⟩
  have htake : (h0 :: (pre ++ h :: tail)).take (step + 1 - 0) =
      h0 :: (pre ++ h :: tail.take k) := by
    rw [show step + 1 - 0 = step + 1 from rfl, List.take_succ_cons,
        List.take_append_eq_append_take,
        List.take_of_length_le (by omega : pre.length ≤ step),
        hk, List.take_succ_cons]
  have hres : resumeIndex ((h0 :: (pre ++ h :: tail)).take (step + 1 - 0))
      0 none = .error (.formatError "inconsistent atom count") := by
    rw [htake, resumeIndex_cons_none,
        resumeIndex_first_mismatch pre h (tail.take k) (0 + h0.size)
          h0.natoms hall hne]
  unfold TRRCodec.read_step TRRCodec.init
  dsimp only
  rw [if_neg (by omega), List.drop_zero, hres]

/-- C3: the atom count declared by the first frame's header fixes
`natoms_` for the whole trajectory (spec-modelled; consistent trajectories
index completely with `natoms_` set by the first header), and any later
frame whose header declares a different atom count — at whatever position
— is a hard `FormatError`: indexing the trajectory (`nsteps`) fails, any
`read_step` reaching the first mismatched frame fails, and in particular
`read_step 1` fails on a trajectory whose second frame disagrees with the
first, rather than returning a truncated or padded frame. -/
theorem trr_first_frame_fixes_natoms :
    (∀ (h0 : FrameRecord) (rest : List FrameRecord),
      (∀ g ∈ rest, g.natoms = h0.natoms) →
      ∃ n c' rgs, (TRRCodec.init (h0 :: rest)).nsteps = .ok (n, c', rgs) ∧
        n = (h0 :: rest).length ∧ c'.natoms_ = some h0.natoms) ∧
    (∀ (h0 : FrameRecord) (rest : List FrameRecord),
      (∃ g ∈ rest, g.natoms ≠ h0.natoms) →
      (TRRCodec.init (h0 :: rest)).nsteps =
        .error (.formatError "inconsistent atom count")) ∧
    (∀ (h0 : FrameRecord) (pre : List FrameRecord) (h : FrameRecord)
        (tail : List FrameRecord) (step : Nat),
      (∀ g ∈ pre, g.natoms = h0.natoms) → h.natoms ≠ h0.natoms →
      pre.length + 1 ≤ step →
      (TRRCodec.init (h0 :: (pre ++ h :: tail))).read_step step =
        .error (.formatError "inconsistent atom count")) ∧
    (∀ (h1 h2 : FrameRecord) (rest : List FrameRecord),
      h2.natoms ≠ h1.natoms →
      (TRRCodec.init (h1 :: h2 :: rest)).read_step 1 =
        .error (.formatError "inconsistent atom count")) := by
  refine ⟨?_, ?_, ?_, ?_⟩
  · intro h0 rest hall
    have hres : resumeIndex (h0 :: rest) 0 none =
        .ok (0 :: offsetsFrom (0 + h0.size) rest,
             (0, 0 + h0.size) :: rangesFrom (0 + h0.size) rest,
             0 + h0.size + totalSize rest, some h0.natoms) := by
      rw [resumeIndex_cons_none,
          resumeIndex_consistent rest (0 + h0.size) h0.natoms hall]
    refine ⟨([] : List Nat).length + (0 :: offsetsFrom (0 + h0.size) rest).length,
      ⟨h0 :: rest, [] ++ (0 :: offsetsFrom (0 + h0.size) rest),
       some h0.natoms, 0 + h0.size + totalSize rest, (h0 :: rest).length⟩,
      (0, 0 + h0.size) :: rangesFrom (0 + h0.size) rest, ?_, ?_, rfl⟩
    · unfold TRRCodec.nsteps TRRCodec.init
      dsimp only
      rw [List.drop_zero, hres]
    · simp [offsetsFrom_length]
  · intro h0 rest hex
    have hres : resumeIndex (h0 :: rest) 0 none =
        .error (.formatError "inconsistent atom count") := by
      rw [resumeIndex_cons_none,
          resumeIndex_mismatch rest (0 + h0.size) h0.natoms hex]
    unfold TRRCodec.nsteps TRRCodec.init
    dsimp only
    rw [List.drop_zero, hres]
  · intro h0 pre h tail step hall hne hstep
    exact read_step_first_mismatch h0 pre h tail step hall hne hstep
  · intro h1 h2 rest hne
    exact read_step_first_mismatch h1 [] h2 rest 1 (by simp) hne
      (Nat.le_refl 1)

/-- C3 witness: a consistent trajectory indexes fully with `natoms_`
fixed by the first header; a mismatch first appearing in the third frame
fails `nsteps` and fails `read_step 2`; a mismatch in the second frame
fails `read_step 1`. -/
theorem trr_first_frame_fixes_natoms_witness :
    (∃ n c' rgs,
      (TRRCodec.init [⟨5, 10⟩, ⟨5, 12⟩]).nsteps = .ok (n, c', rgs) ∧
      n = 2 ∧ c'.natoms_ = some 5) ∧
    (TRRCodec.init [⟨5, 10⟩, ⟨5, 12⟩, ⟨7, 9⟩]).nsteps =
      .error (.formatError "inconsistent atom count") ∧
    (TRRCodec.init [⟨5, 10⟩, ⟨5, 12⟩, ⟨7, 9⟩]).read_step 2 =
      .error (.formatError "inconsistent atom count") ∧
    (TRRCodec.init [⟨5, 10⟩, ⟨6, 10⟩]).read_step 1 =
      .error (.formatError "inconsistent atom count") :=
  ⟨trr_first_frame_fixes_natoms.1 ⟨5, 10⟩ [⟨5, 12⟩] (by decide),
   trr_first_frame_fixes_natoms.2.1 ⟨5, 10⟩ [⟨5, 12⟩, ⟨7, 9⟩]
     ⟨⟨7, 9⟩, by decide, by decide⟩,
   trr_first_frame_fixes_natoms.2.2.1 ⟨5, 10⟩ [⟨5, 12⟩] ⟨7, 9⟩ [] 2
     (by decide) (by decide) (by decide),
   trr_first_frame_fixes_natoms.2.2.2 ⟨5, 10⟩ ⟨6, 10⟩ [] (by decide)⟩

/-- C4: the offset index is built in a single amortized pass
(spec-modelled): indexing always resumes from the last recorded offset,
the byte ranges scanned by one call are mutually disjoint and all start at
or after the current position; a `read_step` below the indexed prefix
scans nothing and leaves the codec untouched; and re-running `nsteps`
after the index is complete scans no byte range at all and leaves the
offset table identical. -/
theorem trr_index_single_pass :
    (∀ (file : List FrameRecord) (n1 : Nat) (c1 : TRRCodec)
        (r1 : List (Nat × Nat)),
      (TRRCodec.init file).nsteps = .ok (n1, c1, r1) →
      ∀ n2 c2 r2, c1.nsteps = .ok (n2, c2, r2) →
        n2 = n1 ∧ c2.frame_offsets_ = c1.frame_offsets_ ∧ r2 = []) ∧
    (∀ (c : TRRCodec) (n : Nat) (c' : TRRCodec) (rgs : List (Nat × Nat)),
      c.nsteps = .ok (n, c', rgs) →
      (∀ rg ∈ rgs, c.pos ≤ rg.1) ∧
      List.Pairwise (fun x y : Nat × Nat => x.2 ≤ y.1) rgs) ∧
    (∀ (c : TRRCodec) (step : Nat) (fr : FrameRecord) (c' : TRRCodec)
        (rgs : List (Nat × Nat)),
      c.read_step step = .ok (fr, c', rgs) →
      ((∀ rg ∈ rgs, c.pos ≤ rg.1) ∧
       List.Pairwise (fun x y : Nat × Nat => x.2 ≤ y.1) rgs) ∧
      (step < c.indexed → rgs = [] ∧ c' = c)) := by
  refine ⟨?_, ?_, ?_⟩
  · intro file n1 c1 r1 h1 n2 c2 r2 h2
    unfold TRRCodec.nsteps TRRCodec.init at h1
    dsimp only at h1
    rw [List.drop_zero] at h1
    cases hres : resumeIndex file 0 none with
    | error e => rw [hres] at h1; simp at h1
    | ok q =>
      obtain ⟨offs, rgs0, stop, nat⟩ := q
      rw [hres] at h1
      dsimp only at h1
      simp only [Except.ok.injEq, Prod.mk.injEq] at h1
      obtain ⟨hn1, hc1, -⟩ := h1
      subst hc1
      unfold TRRCodec.nsteps at h2
      dsimp only at h2
      rw [List.drop_length,
        show resumeIndex [] stop nat = .ok ([], [], stop, nat) from rfl] at h2
      dsimp only at h2
      simp only [Except.ok.injEq, Prod.mk.injEq] at h2
      obtain ⟨hn2, hc2, hr2⟩ := h2
      refine ⟨?_, ?_, hr2.symm⟩
      · rw [← hn2, ← hn1]
        simp
      · rw [← hc2]
        simp
  · intro c n c' rgs h
    unfold TRRCodec.nsteps at h
    cases hres : resumeIndex (c.file.drop c.indexed) c.pos c.natoms_ with
    | error e => rw [hres] at h; simp at h
    | ok q =>
      obtain ⟨offs, rgs0, stop, nat⟩ := q
      rw [hres] at h
      dsimp only at h
      simp only [Except.ok.injEq, Prod.mk.injEq] at h
      obtain ⟨-, -, hr⟩ := h
      obtain ⟨-, hrg, -⟩ := resumeIndex_ok_shape _ _ _ _ _ _ _ hres
      subst hr
      rw [hrg]
      exact ⟨fun rg hmem =>
        ((rangesFrom_bounds _ c.pos).1 rg hmem).1,
        (rangesFrom_bounds _ c.pos).2⟩
  · intro c step fr c' rgs h
    unfold TRRCodec.read_step at h
    by_cases hlt : step < c.indexed
    · rw [if_pos hlt] at h
      cases hget : c.file.get? step with
      | none => rw [hget] at h; simp at h
      | some fr0 =>
        rw [hget] at h
        dsimp only at h
        simp only [Except.ok.injEq, Prod.mk.injEq] at h
        obtain ⟨-, hc', hr⟩ := h
        refine ⟨?_, fun _ => ⟨hr.symm, hc'.symm⟩⟩
        rw [← hr]
        exact ⟨fun rg hrg => absurd hrg (List.not_mem_nil _),
          List.Pairwise.nil⟩
    · rw [if_neg hlt] at h
      dsimp only at h
      cases hres : resumeIndex ((c.file.drop c.indexed).take
          (step + 1 - c.indexed)) c.pos c.natoms_ with
      | error e => rw [hres] at h; simp at h
      | ok q =>
        obtain ⟨offs, rgs0, stop, nat⟩ := q
        rw [hres] at h
        dsimp only at h
        split at h
        · cases hget : c.file.get? step with
          | none => rw [hget] at h; simp at h
          | some fr0 =>
            rw [hget] at h
            dsimp only at h
            simp only [Except.ok.injEq, Prod.mk.injEq] at h
            obtain ⟨-, -, hr⟩ := h
            obtain ⟨-, hrg, -⟩ := resumeIndex_ok_shape _ _ _ _ _ _ _ hres
            subst hr
            rw [hrg]
            exact ⟨⟨fun rg hmem =>
              ((rangesFrom_bounds _ c.pos).1 rg hmem).1,
              (rangesFrom_bounds _ c.pos).2⟩,
              fun hcon => absurd hcon hlt⟩
        · simp at h

/-- C4 witness: indexing a two-frame trajectory scans two adjacent
disjoint ranges starting at the initial position; re-running `nsteps`
scans nothing and keeps the offset table; reading an already-indexed step
scans nothing and leaves the codec unchanged. -/
theorem trr_index_single_pass_witness :
    ((2 : Nat) = 2 ∧ ([0, 10] : List Nat) = [0, 10] ∧
      ([] : List (Nat × Nat)) = []) ∧
    ((∀ rg ∈ [((0 : Nat), (10 : Nat)), (10, 18)], (0 : Nat) ≤ rg.1) ∧
      List.Pairwise (fun x y : Nat × Nat => x.2 ≤ y.1)
        [((0 : Nat), (10 : Nat)), (10, 18)]) ∧
    (((∀ rg ∈ ([] : List (Nat × Nat)), (18 : Nat) ≤ rg.1) ∧
      List.Pairwise (fun x y : Nat × Nat => x.2 ≤ y.1)
        ([] : List (Nat × Nat))) ∧
      (0 < 2 → ([] : List (Nat × Nat)) = [] ∧
        (⟨[⟨5, 10⟩, ⟨5, 8⟩], [0, 10], some 5, 18, 2⟩ : TRRCodec) =
          ⟨[⟨5, 10⟩, ⟨5, 8⟩], [0, 10], some 5, 18, 2⟩)) := by
  refine ⟨?_, ?_, ?_⟩
  · exact trr_index_single_pass.1 [⟨5, 10⟩, ⟨5, 8⟩] 2
      ⟨[⟨5, 10⟩, ⟨5, 8⟩], [0, 10], some 5, 18, 2⟩ [(0, 10), (10, 18)] rfl 2
      ⟨[⟨5, 10⟩, ⟨5, 8⟩], [0, 10], some 5, 18, 2⟩ [] rfl
  · exact trr_index_single_pass.2.1 (TRRCodec.init [⟨5, 10⟩, ⟨5, 8⟩]) 2
      ⟨[⟨5, 10⟩, ⟨5, 8⟩], [0, 10], some 5, 18, 2⟩ [(0, 10), (10, 18)] rfl
  · exact trr_index_single_pass.2.2
      ⟨[⟨5, 10⟩, ⟨5, 8⟩], [0, 10], some 5, 18, 2⟩ 0 ⟨5, 10⟩
      ⟨[⟨5, 10⟩, ⟨5, 8⟩], [0, 10], some 5, 18, 2⟩ [] rfl

end Chemfiles
